import Mathlib

/-!
Verification of the interactive map viewport and path-following engine of
the AI-train-control-system dashboard, as implemented in
`src/components/EnhancedNetworkMap.tsx`.

The TypeScript source is shallowly embedded: JavaScript `number` values are
modelled as real numbers (`ℝ`), `Math.hypot`, `Math.max`, `Math.min` and
`Math.round` by their mathematical counterparts, React state updates by
explicit state-passing functions, and fallible lookups (`Array.find`,
`Record` indexing) by `Option`.
-/

namespace RailMap

/-- A 2D point `{x, y}` with JavaScript numbers modelled as reals. -/
structure Point where
  x : ℝ
  y : ℝ

instance : Inhabited Point := ⟨⟨0, 0⟩⟩

@[ext] theorem Point.ext_xy {p q : Point} (hx : p.x = q.x) (hy : p.y = q.y) : p = q := by
  cases p; cases q; simp_all

/-- The source's `Math.hypot(dx, dy)`. -/
noncomputable def hypot (dx dy : ℝ) : ℝ := Real.sqrt (dx ^ 2 + dy ^ 2)

theorem hypot_nonneg (dx dy : ℝ) : 0 ≤ hypot dx dy := Real.sqrt_nonneg _

/-- Evaluate `hypot` when the hypotenuse is known. -/
theorem hypot_eq (dx dy c : ℝ) (hc : 0 ≤ c) (h : dx ^ 2 + dy ^ 2 = c ^ 2) :
    hypot dx dy = c := by
  rw [hypot, h, Real.sqrt_sq hc]

theorem hypot_eq_zero_iff (dx dy : ℝ) : hypot dx dy = 0 ↔ dx = 0 ∧ dy = 0 := by
  constructor
  · intro h
    rw [hypot, Real.sqrt_eq_zero'] at h
    constructor <;> nlinarith [sq_nonneg dx, sq_nonneg dy]
  · rintro ⟨h1, h2⟩
    simp [hypot, h1, h2]

/-! ## Viewport Controller

State variables `zoom` and `pan` of the component; the CSS transform
`scale(zoom) translate(pan/zoom)` displays world point `w` at screen point
`w * zoom + pan`, and `getMapCoordinates` inverts it. -/

/-- The viewport state `{zoom, pan}`. -/
structure Viewport where
  zoom : ℝ
  pan : Point

/-- Screen position of a world point under the component's CSS transform:
`displayed = orig * zoom + pan`. -/
noncomputable def worldToScreen (v : Viewport) (p : Point) : Point :=
  ⟨p.x * v.zoom + v.pan.x, p.y * v.zoom + v.pan.y⟩

/-- Function `getMapCoordinates`: convert screen coords to map coords,
`x = (screenX - pan.x) / zoom`. -/
noncomputable def screenToWorld (v : Viewport) (p : Point) : Point :=
  ⟨(p.x - v.pan.x) / v.zoom, (p.y - v.pan.y) / v.zoom⟩

/-- Function `zoomAt(pointInContainer, scaleFactor)` from the source:
clamp the new zoom to `[0.3, 3]`, compute the world point under the cursor
with the pre-update zoom/pan, and re-derive the pan so that this world
point stays under the cursor. -/
noncomputable def zoomAt (v : Viewport) (pointInContainer : Point) (scaleFactor : ℝ) :
    Viewport :=
  let newZoom := max 0.3 (min 3 (v.zoom * scaleFactor))
  let worldX := (pointInContainer.x - v.pan.x) / v.zoom
  let worldY := (pointInContainer.y - v.pan.y) / v.zoom
  { zoom := newZoom
    pan := ⟨pointInContainer.x - worldX * newZoom, pointInContainer.y - worldY * newZoom⟩ }

/-- The `handleZoomIn` fallback branch when the container ref is null:
`setZoom(prev => Math.min(prev * 1.2, 3))`. -/
noncomputable def handleZoomInFallback (v : Viewport) : Viewport :=
  { v with zoom := min (v.zoom * 1.2) 3 }

/-- The `handleZoomOut` fallback branch when the container ref is null:
`setZoom(prev => Math.max(prev / 1.2, 0.3))`. -/
noncomputable def handleZoomOutFallback (v : Viewport) : Viewport :=
  { v with zoom := max (v.zoom / 1.2) 0.3 }

/-- Handler `handleResetZoom`: reset to `zoom = 1`, `pan = (0, 0)`. -/
noncomputable def handleResetZoom (_v : Viewport) : Viewport :=
  { zoom := 1, pan := ⟨0, 0⟩ }

/-- Initial viewport state: `useState(1)` and `useState({x: 0, y: 0})`. -/
noncomputable def initialViewport : Viewport := { zoom := 1, pan := ⟨0, 0⟩ }

/-- The operations that mutate the zoom level.  `zoomAtOp` covers the wheel,
double-click, pinch, and (container present) zoom-button paths, which all
funnel through `zoomAt`; the two fallback operations are the zoom buttons'
container-less branches; `resetOp` is the reset button. -/
inductive ViewportOp where
  | zoomAtOp (anchor : Point) (factor : ℝ)
  | zoomInFallbackOp
  | zoomOutFallbackOp
  | resetOp

/-- Apply one viewport operation. -/
noncomputable def applyViewportOp (v : Viewport) : ViewportOp → Viewport
  | .zoomAtOp anchor factor => zoomAt v anchor factor
  | .zoomInFallbackOp => handleZoomInFallback v
  | .zoomOutFallbackOp => handleZoomOutFallback v
  | .resetOp => handleResetZoom v

theorem zoomAt_zoom_bounds (v : Viewport) (a : Point) (f : ℝ) :
    0.3 ≤ (zoomAt v a f).zoom ∧ (zoomAt v a f).zoom ≤ 3 := by
  constructor
  · exact le_max_left _ _
  · simp only [zoomAt]
    exact max_le (by norm_num) (min_le_left _ _)

theorem applyViewportOp_preserves_bounds (v : Viewport) (op : ViewportOp)
    (h : 0.3 ≤ v.zoom ∧ v.zoom ≤ 3) :
    0.3 ≤ (applyViewportOp v op).zoom ∧ (applyViewportOp v op).zoom ≤ 3 := by
  obtain ⟨h1, h2⟩ := h
  cases op with
  | zoomAtOp a f => exact zoomAt_zoom_bounds v a f
  | zoomInFallbackOp =>
    refine ⟨?_, min_le_right _ _⟩
    simp only [applyViewportOp, handleZoomInFallback]
    have : (0.3 : ℝ) ≤ v.zoom * 1.2 := by nlinarith
    exact le_min this (by norm_num)
  | zoomOutFallbackOp =>
    refine ⟨le_max_right _ _, ?_⟩
    simp only [applyViewportOp, handleZoomOutFallback]
    have : v.zoom / 1.2 ≤ 3 := by
      rw [div_le_iff (by norm_num)]
      nlinarith
    exact max_le this (by norm_num)
  | resetOp => constructor <;> norm_num [applyViewportOp, handleResetZoom]

/-- C1: Anchored zoom preserves the point under the cursor.  For any
viewport with `zoom ∈ [0.3, 3]`, anchor screen point `a` and factor `f`
with `zoom * f ∈ [0.3, 3]`, after `zoomAt a f` the new zoom is exactly
`zoom * f` and the pre-update world point `screenToWorld a` maps back to
`a` on screen within `1e-6` in each coordinate. -/
theorem zoomAt_preserves_anchor (v : Viewport) (a : Point) (f : ℝ)
    (hz1 : 0.3 ≤ v.zoom) (hz2 : v.zoom ≤ 3)
    (hf1 : 0.3 ≤ v.zoom * f) (hf2 : v.zoom * f ≤ 3) :
    (zoomAt v a f).zoom = v.zoom * f ∧
    |(worldToScreen (zoomAt v a f) (screenToWorld v a)).x - a.x| ≤ 1e-6 ∧
    |(worldToScreen (zoomAt v a f) (screenToWorld v a)).y - a.y| ≤ 1e-6 := by
  have hzoom : (zoomAt v a f).zoom = v.zoom * f := by
    simp only [zoomAt]
    rw [min_eq_right hf2, max_eq_right hf1]
  refine ⟨hzoom, ?_, ?_⟩ <;>
  · simp only [worldToScreen, screenToWorld, zoomAt]
    rw [min_eq_right hf2, max_eq_right hf1]
    ring_nf
    norm_num

/-- C1 witness: concrete scenario A, viewport `{zoom: 1, pan: (0,0)}`,
`zoomAt((100,100), 1.2)` gives zoom `1.2` and the anchor maps back to
`(100,100)` within tolerance. -/
theorem zoomAt_preserves_anchor_witness :
    (0.3 : ℝ) ≤ 1 ∧ (1 : ℝ) ≤ 3 ∧ (0.3 : ℝ) ≤ 1 * 1.2 ∧ (1 : ℝ) * 1.2 ≤ 3 ∧
    ((zoomAt ⟨1, ⟨0, 0⟩⟩ ⟨100, 100⟩ 1.2).zoom = 1 * 1.2 ∧
     |(worldToScreen (zoomAt ⟨1, ⟨0, 0⟩⟩ ⟨100, 100⟩ 1.2)
         (screenToWorld ⟨1, ⟨0, 0⟩⟩ ⟨100, 100⟩)).x - (100 : ℝ)| ≤ 1e-6 ∧
     |(worldToScreen (zoomAt ⟨1, ⟨0, 0⟩⟩ ⟨100, 100⟩ 1.2)
         (screenToWorld ⟨1, ⟨0, 0⟩⟩ ⟨100, 100⟩)).y - (100 : ℝ)| ≤ 1e-6) :=
  ⟨by norm_num, by norm_num, by norm_num, by norm_num,
   zoomAt_preserves_anchor ⟨1, ⟨0, 0⟩⟩ ⟨100, 100⟩ 1.2
     (by norm_num) (by norm_num) (by norm_num) (by norm_num)⟩

/-- C3: Zoom-bound invariant.  Starting from the initial state `zoom = 1`,
after any finite sequence of `zoomAt` (wheel, double-click, pinch, zoom
buttons), the buttons' container-less fallbacks, and reset, the zoom stays
in `[0.3, 3]`. -/
theorem zoom_bounds_invariant (ops : List ViewportOp) :
    0.3 ≤ (ops.foldl applyViewportOp initialViewport).zoom ∧
    (ops.foldl applyViewportOp initialViewport).zoom ≤ 3 := by
  have key : ∀ (l : List ViewportOp) (v : Viewport),
      0.3 ≤ v.zoom ∧ v.zoom ≤ 3 →
      0.3 ≤ (l.foldl applyViewportOp v).zoom ∧ (l.foldl applyViewportOp v).zoom ≤ 3 := by
    intro l
    induction l with
    | nil => intro v h; exact h
    | cons op rest ih =>
      intro v h
      exact ih _ (applyViewportOp_preserves_bounds v op h)
  exact key ops initialViewport ⟨by norm_num [initialViewport], by norm_num [initialViewport]⟩

/-! ## Entities

The engine-relevant fields of the `Train` record (`Entity` in the spec). -/

/-- A train entity; only the fields the map engine reads or writes. -/
structure Train where
  id : String
  currentStation : String
  nextStation : String
  speed : ℝ
  maxSpeed : ℝ
  delay : ℝ
  route : List String
  position : Point

/-- The check `train.id.startsWith('M')` — whether the train was placed manually.
Evaluated on the string's character list, which is equivalent for a
single-character pattern. -/
def isManualId (id : String) : Bool :=
  match id.data with
  | [] => false
  | c :: _ => c == 'M'

/-! ## Inertia loop

`handleMouseUp` (and the identical code in `handleTouchEnd`) reads the
release velocity `{vx, vy}` from `velocityRef` and, if its magnitude
exceeds `0.01`, starts a `requestAnimationFrame` loop whose body is the
`step` closure.  Note that `step` captures `vx`/`vy` from the release —
each tick adds `vx * 16` to the pan and stores `vx * decay` (with
`decay = 0.95`) into `velocityRef`, then re-checks the magnitude of the
value just stored. -/

/-- The mutable state touched by the inertia loop: the pan, the contents of
`velocityRef`, and whether an animation frame is scheduled
(`inertiaAnimRef` non-null). -/
structure InertiaState where
  pan : Point
  vel : Point
  running : Bool

/-- One execution of the `step` closure from `handleMouseUp`, with `vx`,
`vy` the closure-captured release velocity. -/
noncomputable def inertiaStep (vx vy : ℝ) (s : InertiaState) : InertiaState :=
  { pan := ⟨s.pan.x + vx * 16, s.pan.y + vy * 16⟩
    vel := ⟨vx * 0.95, vy * 0.95⟩
    running := if 0.01 < hypot (vx * 0.95) (vy * 0.95) then true else false }

/-- The inertia state right after a pan release with velocity `(1, 0)`
has started the loop. -/
noncomputable def inertiaBugStart : InertiaState :=
  { pan := ⟨0, 0⟩, vel := ⟨1, 0⟩, running := true }

/-- C4: the inertia `step` closure captures the release velocity, so the
stored velocity is `v0 * 0.95` after every tick — not `v0 * 0.95 ^ n` —
the continue-check compares a constant against the threshold, and for
release velocity `(1, 0)` (above the `0.01` start threshold) the loop
stays scheduled forever while the pan grows linearly. -/
theorem inertia_stale_velocity_bug :
    0.01 < hypot 1 0 ∧
    (∀ n : ℕ,
      ((inertiaStep 1 0)^[n + 1] inertiaBugStart).vel.x = 0.95 ∧
      ((inertiaStep 1 0)^[n + 1] inertiaBugStart).running = true ∧
      ((inertiaStep 1 0)^[n + 1] inertiaBugStart).pan.x = 16 * (n + 1)) ∧
    ((inertiaStep 1 0)^[2] inertiaBugStart).vel.x ≠ 1 * 0.95 ^ 2 := by
  have hyp95 : hypot (1 * 0.95) (0 * 0.95) = 0.95 := by
    apply hypot_eq _ _ _ (by norm_num)
    norm_num
  have hstep : ∀ s : InertiaState,
      (inertiaStep 1 0 s).vel.x = 0.95 ∧ (inertiaStep 1 0 s).running = true ∧
      (inertiaStep 1 0 s).pan.x = s.pan.x + 16 := by
    intro s
    refine ⟨by norm_num [inertiaStep], ?_, by norm_num [inertiaStep]⟩
    simp only [inertiaStep, hyp95]
    norm_num
  have hpan : ∀ n : ℕ, ((inertiaStep 1 0)^[n] inertiaBugStart).pan.x = 16 * n := by
    intro n
    induction n with
    | zero => simp [inertiaBugStart]
    | succ k ih =>
      rw [Function.iterate_succ_apply', (hstep _).2.2, ih]
      push_cast
      ring
  refine ⟨?_, ?_, ?_⟩
  · rw [hypot_eq 1 0 1 (by norm_num) (by norm_num)]
    norm_num
  · intro n
    rw [Function.iterate_succ_apply']
    exact ⟨(hstep _).1, (hstep _).2.1, by rw [(hstep _).2.2, hpan n]; push_cast; ring⟩
  · have : ((inertiaStep 1 0)^[2] inertiaBugStart).vel.x = 0.95 := by
      rw [Function.iterate_succ_apply']
      exact (hstep _).1
    rw [this]
    norm_num

/-! ## Gesture Session Manager

The pointer/touch handlers of the component, as pure functions on an
explicit state record.  Client coordinates are taken relative to the map
container (the container rect offset is folded into the coordinates). -/

/-- The component state read and written by the gesture handlers. -/
structure GestureState where
  zoom : ℝ
  pan : Point
  isDragging : Bool
  dragStart : Point
  lastMove : Option (Point × ℝ)
  velocity : Point
  inertiaRunning : Bool
  pinchIsPinching : Bool
  pinchStartDistance : ℝ
  pinchLastDistance : ℝ
  pinchLastCenter : Option Point
  placeMode : Bool
  draggingTrainId : Option String
  manualTrains : List Train

/-- Handler `handleMouseDown`.  `clickedTrain` is whether
`e.target.closest('[data-train-id]')` found a train marker; `genId` and
`genNumber` stand for the `Date.now()`/`Math.random()`-generated id and
number of a newly placed manual train.  In place mode over empty space the
handler creates a manual train and returns early — in particular without
touching `inertiaAnimRef`; otherwise it starts a pan, zeroes the velocity
estimate and cancels any running inertia animation. -/
noncomputable def handleMouseDown (clickedTrain : Bool) (clientX clientY now : ℝ)
    (genId genNumber : String) (s : GestureState) : GestureState :=
  if s.placeMode && !clickedTrain then
    let coords : Point := ⟨(clientX - s.pan.x) / s.zoom, (clientY - s.pan.y) / s.zoom⟩
    let newTrain : Train :=
      { id := genId, currentStation := "ST001", nextStation := "ST002",
        speed := 0, maxSpeed := 120, delay := 0, route := [],
        position := coords }
    { s with manualTrains := s.manualTrains ++ [newTrain],
             draggingTrainId := some genId }
  else
    { s with isDragging := true,
             dragStart := ⟨clientX - s.pan.x, clientY - s.pan.y⟩,
             lastMove := some (⟨clientX, clientY⟩, now),
             velocity := ⟨0, 0⟩,
             inertiaRunning := false }

/-- The `onMouseDown` handler attached to each train marker: in place mode
on a manual train it grabs the train for dragging (and stops propagation);
otherwise it does nothing at this level (the event bubbles to the
container's `handleMouseDown`). -/
noncomputable def handleTrainMouseDown (train : Train) (s : GestureState) : GestureState :=
  if s.placeMode && isManualId train.id then
    { s with draggingTrainId := some train.id }
  else
    s

/-- Handler `handleTouchStart`: one finger starts a pan (cancelling inertia), two
fingers start a pinch (recording distances and center, without touching
`inertiaAnimRef`), anything else is ignored. -/
noncomputable def handleTouchStart (touches : List Point) (now : ℝ)
    (s : GestureState) : GestureState :=
  match touches with
  | [t] =>
    { s with isDragging := true,
             dragStart := ⟨t.x - s.pan.x, t.y - s.pan.y⟩,
             lastMove := some (t, now),
             velocity := ⟨0, 0⟩,
             inertiaRunning := false }
  | [a, b] =>
    let d := hypot (b.x - a.x) (b.y - a.y)
    { s with pinchIsPinching := true,
             pinchStartDistance := d,
             pinchLastDistance := d,
             pinchLastCenter := some ⟨(a.x + b.x) / 2, (a.y + b.y) / 2⟩ }
  | _ => s

/-- A gesture state with an inertia animation running and place mode on. -/
noncomputable def placeModeInertiaState : GestureState :=
  { zoom := 1, pan := ⟨0, 0⟩, isDragging := false, dragStart := ⟨0, 0⟩,
    lastMove := none, velocity := ⟨0.5, 0⟩, inertiaRunning := true,
    pinchIsPinching := false, pinchStartDistance := 0, pinchLastDistance := 0,
    pinchLastCenter := none, placeMode := true, draggingTrainId := none,
    manualTrains := [] }

/-- C8 counterexample: a pointer-down in place mode over empty space (a new
gesture that creates and grabs a manual train) leaves a running inertia
animation running, contradicting the claim that every gesture start
cancels inertia. -/
theorem place_mode_mousedown_keeps_inertia :
    (handleMouseDown false 5 7 0 "M1" "M101" placeModeInertiaState).inertiaRunning
      = true := by
  simp [handleMouseDown, placeModeInertiaState]

/-- C8 amended: only pan-starting gestures cancel inertia.  A pointer-down
over empty space outside place mode (or over a train marker, via event
bubbling) and a one-finger touch start cancel a running inertia animation;
a pointer-down in place mode over empty space, a grab of a manual train via
its marker, and a two-finger pinch start leave it untouched. -/
theorem inertia_cancellation_exact :
    (∀ (ct : Bool) (cx cy now : ℝ) (gi gn : String) (s : GestureState),
      (s.placeMode = false ∨ ct = true) →
      (handleMouseDown ct cx cy now gi gn s).inertiaRunning = false) ∧
    (∀ (cx cy now : ℝ) (gi gn : String) (s : GestureState),
      s.placeMode = true →
      (handleMouseDown false cx cy now gi gn s).inertiaRunning = s.inertiaRunning) ∧
    (∀ (train : Train) (s : GestureState),
      (handleTrainMouseDown train s).inertiaRunning = s.inertiaRunning) ∧
    (∀ (t : Point) (now : ℝ) (s : GestureState),
      (handleTouchStart [t] now s).inertiaRunning = false) ∧
    (∀ (a b : Point) (now : ℝ) (s : GestureState),
      (handleTouchStart [a, b] now s).inertiaRunning = s.inertiaRunning) := by
  refine ⟨?_, ?_, ?_, ?_, ?_⟩
  · rintro ct cx cy now gi gn s (h | h) <;> simp [handleMouseDown, h]
  · intro cx cy now gi gn s h
    simp [handleMouseDown, h]
  · intro train s
    simp only [handleTrainMouseDown]
    split <;> rfl
  · intro t now s
    simp [handleTouchStart]
  · intro a b now s
    simp [handleTouchStart]

/-- C8 amended witness: the non-place-mode pointer-down at `(5, 7)` on the
example state (with place mode switched off) cancels the running inertia
animation. -/
theorem inertia_cancellation_exact_witness :
    ({ placeModeInertiaState with placeMode := false } : GestureState).placeMode
        = false ∧
    (handleMouseDown false 5 7 0 "M1" "M101"
      { placeModeInertiaState with placeMode := false }).inertiaRunning = false :=
  ⟨rfl, inertia_cancellation_exact.1 false 5 7 0 "M1" "M101"
    { placeModeInertiaState with placeMode := false } (Or.inl rfl)⟩

/-! ## Geometry: position and tangent along a polyline

`getPointAlongPath(points, progress)` computes per-segment Euclidean
lengths and their total, clamps `progress` to `[0, 1]`, scales by the
total, and scans segments accumulating lengths until the first segment
whose end-cumulative length reaches the target (`target <= nextAcc`,
inclusive), interpolating linearly inside it.  The indexed `for` loop with
fall-through is embedded as the recursion `walk` returning `Option`, with
the post-loop fallback applied to `none`. -/

/-- Result record `{position, tangent}` of `getPointAlongPath`. -/
structure PathPoint where
  position : Point
  tangent : Point

@[ext] theorem PathPoint.ext_pt {p q : PathPoint} (h1 : p.position = q.position)
    (h2 : p.tangent = q.tangent) : p = q := by
  cases p; cases q; simp_all

/-- Total piecewise-linear length of a polyline (the source's `total`,
the sum of the `segmentLengths` array). -/
noncomputable def totalLen : List Point → ℝ
  | p0 :: p1 :: rest => hypot (p1.x - p0.x) (p1.y - p0.y) + totalLen (p1 :: rest)
  | _ => 0

theorem totalLen_nonneg (l : List Point) : 0 ≤ totalLen l := by
  induction l with
  | nil => simp [totalLen]
  | cons p tl ih =>
    cases tl with
    | nil => simp [totalLen]
    | cons q r =>
      have h := hypot_nonneg (q.x - p.x) (q.y - p.y)
      simp only [totalLen]
      linarith

theorem totalLen_cons₂ (p0 p1 : Point) (l : List Point) :
    totalLen (p0 :: p1 :: l) = hypot (p1.x - p0.x) (p1.y - p0.y) + totalLen (p1 :: l) := by
  simp [totalLen]

/-- A polyline of total length zero has collapsed to a single point. -/
theorem totalLen_zero_getLastD (l : List Point) (p d : Point)
    (h : totalLen (p :: l) = 0) : (p :: l).getLastD d = p := by
  induction l generalizing p d with
  | nil => simp
  | cons q r ih =>
    rw [totalLen_cons₂] at h
    have h1 := hypot_nonneg (q.x - p.x) (q.y - p.y)
    have h2 := totalLen_nonneg (q :: r)
    have hz : hypot (q.x - p.x) (q.y - p.y) = 0 := by linarith
    have hq : q = p := by
      obtain ⟨hx, hy⟩ := (hypot_eq_zero_iff _ _).mp hz
      ext <;> linarith
    have ht : totalLen (q :: r) = 0 := by linarith
    rw [List.getLastD_cons, ih q p ht, hq]

/-- The scanning loop of `getPointAlongPath`: accumulate segment lengths
until the first segment whose end-cumulative length reaches `target`;
`none` when the loop falls through. -/
noncomputable def walk (target : ℝ) : ℝ → List Point → Option PathPoint
  | acc, p0 :: p1 :: rest =>
    let len := hypot (p1.x - p0.x) (p1.y - p0.y)
    if target ≤ acc + len then
      let localT := if len = 0 then 0 else (target - acc) / len
      some ⟨⟨p0.x + (p1.x - p0.x) * localT, p0.y + (p1.y - p0.y) * localT⟩,
            ⟨p1.x - p0.x, p1.y - p0.y⟩⟩
    else walk target (acc + len) (p1 :: rest)
  | _, _ => none

/-- The value `getPointAlongPath` produces when the scan stops at segment
`i`: linear interpolation between points `i` and `i + 1` at the local
parameter, with the segment's unnormalized direction as tangent.  `accI`
is the cumulative length before segment `i`. -/
noncomputable def segEval (pts : List Point) (i : ℕ) (target accI : ℝ) : PathPoint :=
  let p0 := pts.getD i default
  let p1 := pts.getD (i + 1) default
  let len := hypot (p1.x - p0.x) (p1.y - p0.y)
  let localT := if len = 0 then 0 else (target - accI) / len
  ⟨⟨p0.x + (p1.x - p0.x) * localT, p0.y + (p1.y - p0.y) * localT⟩,
   ⟨p1.x - p0.x, p1.y - p0.y⟩⟩

/-- Function `getPointAlongPath` from the source: degenerate guards for empty,
single-point and zero-length paths, then the clamped arc-length scan.
The post-loop fallback (last point, direction from its predecessor) is
dead code whenever `target ≤ total`. -/
noncomputable def getPointAlongPath (points : List Point) (progress : ℝ) : PathPoint :=
  match points with
  | [] => ⟨⟨0, 0⟩, ⟨1, 0⟩⟩
  | [p] => ⟨p, ⟨1, 0⟩⟩
  | p0 :: p1 :: rest =>
    let total := totalLen (p0 :: p1 :: rest)
    if total = 0 then ⟨p0, ⟨1, 0⟩⟩
    else
      let target := max 0 (min 1 progress) * total
      match walk target 0 (p0 :: p1 :: rest) with
      | some r => r
      | none =>
        match (p0 :: p1 :: rest).reverse with
        | la :: pr :: _ => ⟨la, ⟨la.x - pr.x, la.y - pr.y⟩⟩
        | _ => ⟨p0, ⟨1, 0⟩⟩

/-- The scan stops at the first segment whose end-cumulative length
reaches the target, and evaluates `segEval` there. -/
theorem walk_first_seg (i : ℕ) :
    ∀ (pts : List Point) (target acc : ℝ),
      i + 1 < pts.length →
      (∀ j, j < i → acc + totalLen (pts.take (j + 2)) < target) →
      target ≤ acc + totalLen (pts.take (i + 2)) →
      walk target acc pts = some (segEval pts i target (acc + totalLen (pts.take (i + 1)))) := by
  induction i with
  | zero =>
    intro pts target acc hlen _ hle
    match pts, hlen with
    | p0 :: p1 :: rest, _ =>
      have htake : totalLen ((p0 :: p1 :: rest).take 2) = hypot (p1.x - p0.x) (p1.y - p0.y) := by
        simp [totalLen]
      rw [htake] at hle
      simp only [walk, if_pos hle, segEval, List.take_succ_cons, List.take_zero,
        List.getD_cons_zero, List.getD_cons_succ, totalLen]
      norm_num
  | succ k ih =>
    intro pts target acc hlen hfirst hle
    match pts, hlen with
    | p0 :: p1 :: rest, hlen =>
      have hlen' : k + 1 < (p1 :: rest).length := by
        simp only [List.length_cons] at hlen ⊢
        omega
      have h0 : acc + totalLen ((p0 :: p1 :: rest).take 2) < target := hfirst 0 (Nat.succ_pos k)
      have htake2 : totalLen ((p0 :: p1 :: rest).take 2) = hypot (p1.x - p0.x) (p1.y - p0.y) := by
        simp [totalLen]
      rw [htake2] at h0
      have hnotle : ¬ target ≤ acc + hypot (p1.x - p0.x) (p1.y - p0.y) := by linarith
      have htake_shift : ∀ m : ℕ, totalLen ((p0 :: p1 :: rest).take (m + 2)) =
          hypot (p1.x - p0.x) (p1.y - p0.y) + totalLen ((p1 :: rest).take (m + 1)) := by
        intro m
        cases rest with
        | nil =>
          cases m <;> simp [totalLen]
        | cons q r =>
          rw [List.take_succ_cons, List.take_succ_cons, totalLen_cons₂]
      have hfirst' : ∀ j, j < k →
          (acc + hypot (p1.x - p0.x) (p1.y - p0.y)) + totalLen ((p1 :: rest).take (j + 2)) < target := by
        intro j hj
        have := hfirst (j + 1) (Nat.succ_lt_succ hj)
        rw [htake_shift (j + 1)] at this
        linarith
      have hle' : target ≤ (acc + hypot (p1.x - p0.x) (p1.y - p0.y)) +
          totalLen ((p1 :: rest).take (k + 2)) := by
        rw [htake_shift (k + 1)] at hle
        linarith
      have hrec := ih (p1 :: rest) target (acc + hypot (p1.x - p0.x) (p1.y - p0.y))
        hlen' hfirst' hle'
      simp only [walk, if_neg hnotle]
      rw [hrec]
      congr 1
      have hacc : acc + totalLen ((p0 :: p1 :: rest).take (k + 2)) =
          (acc + hypot (p1.x - p0.x) (p1.y - p0.y)) + totalLen ((p1 :: rest).take (k + 1)) := by
        rw [htake_shift k]
        ring
      simp only [segEval, List.getD_cons_succ, hacc]

/-- When the target equals the starting accumulator, the first segment is
selected with local parameter `0`, returning its start point exactly. -/
theorem walk_at_start (p0 p1 : Point) (rest : List Point) (acc : ℝ) :
    ∃ tang, walk acc acc (p0 :: p1 :: rest) = some ⟨p0, tang⟩ := by
  have hnn := hypot_nonneg (p1.x - p0.x) (p1.y - p0.y)
  refine ⟨⟨p1.x - p0.x, p1.y - p0.y⟩, ?_⟩
  simp only [walk, if_pos (by linarith : acc ≤ acc + hypot (p1.x - p0.x) (p1.y - p0.y))]
  have hT : (if hypot (p1.x - p0.x) (p1.y - p0.y) = 0 then (0 : ℝ)
      else (acc - acc) / hypot (p1.x - p0.x) (p1.y - p0.y)) = 0 := by
    split <;> simp
  rw [hT]
  congr 2 <;> ring

/-- When the target equals the starting accumulator plus the whole
remaining length (and that length is positive), the scan lands exactly on
the last point. -/
theorem walk_at_end (rest : List Point) :
    ∀ (p0 p1 : Point) (acc : ℝ) (dd : Point),
      0 < totalLen (p0 :: p1 :: rest) →
      ∃ r, walk (acc + totalLen (p0 :: p1 :: rest)) acc (p0 :: p1 :: rest) = some r ∧
        r.position = (p0 :: p1 :: rest).getLastD dd := by
  induction rest with
  | nil =>
    intro p0 p1 acc dd hpos
    have hlen : totalLen [p0, p1] = hypot (p1.x - p0.x) (p1.y - p0.y) := by
      simp [totalLen]
    rw [hlen] at hpos ⊢
    have hcond : acc + hypot (p1.x - p0.x) (p1.y - p0.y) ≤
        acc + hypot (p1.x - p0.x) (p1.y - p0.y) := le_refl _
    refine ⟨⟨⟨p0.x + (p1.x - p0.x) * 1, p0.y + (p1.y - p0.y) * 1⟩,
      ⟨p1.x - p0.x, p1.y - p0.y⟩⟩, ?_, ?_⟩
    · simp only [walk, if_pos hcond]
      have hloc : (if hypot (p1.x - p0.x) (p1.y - p0.y) = 0 then (0 : ℝ)
          else (acc + hypot (p1.x - p0.x) (p1.y - p0.y) - acc) /
            hypot (p1.x - p0.x) (p1.y - p0.y)) = 1 := by
        rw [if_neg (ne_of_gt hpos)]
        field_simp
      rw [hloc]
    · simp only [List.getLastD_cons, List.getLastD_nil]
      ext <;> simp <;> ring
  | cons q r ih =>
    intro p0 p1 acc dd hpos
    have hlen_nn : 0 ≤ hypot (p1.x - p0.x) (p1.y - p0.y) := hypot_nonneg _ _
    have hT'nn : 0 ≤ totalLen (p1 :: q :: r) := totalLen_nonneg _
    rw [totalLen_cons₂] at hpos ⊢
    by_cases hT' : totalLen (p1 :: q :: r) = 0
    · -- remaining segments are degenerate: the scan stops here at t = 1
      have hlenpos : 0 < hypot (p1.x - p0.x) (p1.y - p0.y) := by
        rw [hT'] at hpos; simpa using hpos
      have hcond : acc + (hypot (p1.x - p0.x) (p1.y - p0.y) + totalLen (p1 :: q :: r)) ≤
          acc + hypot (p1.x - p0.x) (p1.y - p0.y) := by
        rw [hT']; simp
      refine ⟨⟨⟨p0.x + (p1.x - p0.x) * 1, p0.y + (p1.y - p0.y) * 1⟩,
        ⟨p1.x - p0.x, p1.y - p0.y⟩⟩, ?_, ?_⟩
      · simp only [walk, if_pos hcond]
        have hloc : (if hypot (p1.x - p0.x) (p1.y - p0.y) = 0 then (0 : ℝ)
            else (acc + (hypot (p1.x - p0.x) (p1.y - p0.y) + totalLen (p1 :: q :: r)) - acc) /
              hypot (p1.x - p0.x) (p1.y - p0.y)) = 1 := by
          rw [if_neg (ne_of_gt hlenpos), hT']
          field_simp
        rw [hloc]
      · have hlast : (p0 :: p1 :: q :: r).getLastD dd = p1 := by
          rw [List.getLastD_cons, totalLen_zero_getLastD _ _ _ hT']
        rw [hlast]
        ext <;> simp <;> ring
    · -- positive length remains: the condition fails and the scan recurses
      have hT'pos : 0 < totalLen (p1 :: q :: r) := lt_of_le_of_ne hT'nn (Ne.symm hT')
      have hcond : ¬ acc + (hypot (p1.x - p0.x) (p1.y - p0.y) + totalLen (p1 :: q :: r)) ≤
          acc + hypot (p1.x - p0.x) (p1.y - p0.y) := by
        intro hc; linarith
      obtain ⟨res, hw, hp⟩ := ih p1 q (acc + hypot (p1.x - p0.x) (p1.y - p0.y)) dd hT'pos
      refine ⟨res, ?_, ?_⟩
      · simp only [walk, if_neg hcond]
        have harg : acc + (hypot (p1.x - p0.x) (p1.y - p0.y) + totalLen (p1 :: q :: r)) =
            acc + hypot (p1.x - p0.x) (p1.y - p0.y) + totalLen (p1 :: q :: r) := by ring
        rw [harg]
        exact hw
      · rw [hp]
        simp only [List.getLastD_cons]

/-- C7: Endpoint exactness of `getPointAlongPath`.  For every path whose
total piecewise-linear length is strictly positive, progress `0` returns
exactly the first point and progress `1` exactly the last point. -/
theorem getPointAlongPath_endpoints (points : List Point) (h : 0 < totalLen points) :
    (getPointAlongPath points 0).position = points.headI ∧
    (getPointAlongPath points 1).position = points.getLastD ⟨0, 0⟩ := by
  match points, h with
  | [], h => simp [totalLen] at h
  | [p], h => simp [totalLen] at h
  | p0 :: p1 :: rest, h =>
    have hne : totalLen (p0 :: p1 :: rest) ≠ 0 := ne_of_gt h
    constructor
    · have htarget : max 0 (min 1 (0 : ℝ)) * totalLen (p0 :: p1 :: rest) = 0 := by
        norm_num
      obtain ⟨tang, hw⟩ := walk_at_start p0 p1 rest 0
      simp only [getPointAlongPath, if_neg hne, htarget, hw, List.headI]
    · have htarget : max 0 (min 1 (1 : ℝ)) * totalLen (p0 :: p1 :: rest) =
          0 + totalLen (p0 :: p1 :: rest) := by
        norm_num
      obtain ⟨r, hw, hp⟩ := walk_at_end rest p0 p1 0 ⟨0, 0⟩ h
      simp only [getPointAlongPath, if_neg hne, htarget, hw, hp]

/-- C6: Inclusive tie-break in `getPointAlongPath`.  For every path with
positive total length, whenever `i` is the first segment whose
end-cumulative length reaches `target = clamp(progress, 0, 1) * total`
(inclusive comparison), the function interpolates linearly inside segment
`i` and returns that segment's unnormalized direction as tangent; in the
concrete scenario `[(0,0), (10,0), (10,10)]` at progress `0.5` the target
`10` ties with the end of the first segment, so the result is its end
point `(10, 0)` with tangent `(10, 0)`. -/
theorem getPointAlongPath_first_segment :
    (∀ (points : List Point) (progress : ℝ) (i : ℕ),
      0 < totalLen points →
      i + 1 < points.length →
      (∀ j, j < i →
        totalLen (points.take (j + 2)) < max 0 (min 1 progress) * totalLen points) →
      max 0 (min 1 progress) * totalLen points ≤ totalLen (points.take (i + 2)) →
      getPointAlongPath points progress =
        segEval points i (max 0 (min 1 progress) * totalLen points)
          (totalLen (points.take (i + 1)))) ∧
    getPointAlongPath [(⟨0, 0⟩ : Point), ⟨10, 0⟩, ⟨10, 10⟩] 0.5 = ⟨⟨10, 0⟩, ⟨10, 0⟩⟩ := by
  constructor
  · intro points progress i hpos hlen hfirst hle
    match points, hlen with
    | p0 :: p1 :: rest, hlen =>
      have hne : totalLen (p0 :: p1 :: rest) ≠ 0 := ne_of_gt hpos
      have hfirst' : ∀ j, j < i →
          (0 : ℝ) + totalLen ((p0 :: p1 :: rest).take (j + 2)) <
            max 0 (min 1 progress) * totalLen (p0 :: p1 :: rest) := by
        intro j hj
        rw [zero_add]
        exact hfirst j hj
      have hle' : max 0 (min 1 progress) * totalLen (p0 :: p1 :: rest) ≤
          (0 : ℝ) + totalLen ((p0 :: p1 :: rest).take (i + 2)) := by
        rw [zero_add]
        exact hle
      have hw := walk_first_seg i (p0 :: p1 :: rest)
        (max 0 (min 1 progress) * totalLen (p0 :: p1 :: rest)) 0 hlen hfirst' hle'
      rw [zero_add] at hw
      simp only [getPointAlongPath, if_neg hne, hw]
  · have e1 : hypot ((10 : ℝ) - 0) ((0 : ℝ) - 0) = 10 :=
      hypot_eq _ _ _ (by norm_num) (by norm_num)
    have e2 : hypot ((10 : ℝ) - 10) ((10 : ℝ) - 0) = 10 :=
      hypot_eq _ _ _ (by norm_num) (by norm_num)
    have htot : totalLen [(⟨0, 0⟩ : Point), ⟨10, 0⟩, ⟨10, 10⟩] = 20 := by
      simp only [totalLen, e1, e2]
      norm_num
    simp only [getPointAlongPath, htot, walk, e1]
    norm_num

/-- C6 witness: the general part of `getPointAlongPath_first_segment`
applied to scenario B with `i = 0`: the target `10` equals the first
segment's end-cumulative length, which selects that segment. -/
theorem getPointAlongPath_first_segment_witness :
    0 < totalLen [(⟨0, 0⟩ : Point), ⟨10, 0⟩, ⟨10, 10⟩] ∧
    getPointAlongPath [(⟨0, 0⟩ : Point), ⟨10, 0⟩, ⟨10, 10⟩] 0.5 =
      segEval [(⟨0, 0⟩ : Point), ⟨10, 0⟩, ⟨10, 10⟩] 0
        (max 0 (min 1 (0.5 : ℝ)) * totalLen [(⟨0, 0⟩ : Point), ⟨10, 0⟩, ⟨10, 10⟩])
        (totalLen ([(⟨0, 0⟩ : Point), ⟨10, 0⟩, ⟨10, 10⟩].take 1)) := by
  have e1 : hypot ((10 : ℝ) - 0) ((0 : ℝ) - 0) = 10 :=
    hypot_eq _ _ _ (by norm_num) (by norm_num)
  have e2 : hypot ((10 : ℝ) - 10) ((10 : ℝ) - 0) = 10 :=
    hypot_eq _ _ _ (by norm_num) (by norm_num)
  have htot : totalLen [(⟨0, 0⟩ : Point), ⟨10, 0⟩, ⟨10, 10⟩] = 20 := by
    simp only [totalLen, e1, e2]
    norm_num
  have htake : totalLen ([(⟨0, 0⟩ : Point), ⟨10, 0⟩, ⟨10, 10⟩].take 2) = 10 := by
    simp only [List.take_succ_cons, List.take_zero, totalLen, e1]
    norm_num
  refine ⟨by rw [htot]; norm_num, ?_⟩
  apply getPointAlongPath_first_segment.1 _ _ 0 (by rw [htot]; norm_num) (by norm_num)
    (by intro j hj; omega)
  rw [htot, htake]
  norm_num

/-- C7 witness: the two-point path `[(0,0), (10,0)]` has positive length
and `getPointAlongPath` returns `(0,0)` at progress `0` and `(10,0)` at
progress `1`. -/
theorem getPointAlongPath_endpoints_witness :
    0 < totalLen [(⟨0, 0⟩ : Point), ⟨10, 0⟩] ∧
    (getPointAlongPath [(⟨0, 0⟩ : Point), ⟨10, 0⟩] 0).position =
      ([(⟨0, 0⟩ : Point), ⟨10, 0⟩].headI : Point) ∧
    (getPointAlongPath [(⟨0, 0⟩ : Point), ⟨10, 0⟩] 1).position =
      [(⟨0, 0⟩ : Point), ⟨10, 0⟩].getLastD ⟨0, 0⟩ := by
  have hpos : 0 < totalLen [(⟨0, 0⟩ : Point), ⟨10, 0⟩] := by
    have he : hypot ((10 : ℝ) - 0) ((0 : ℝ) - 0) = 10 :=
      hypot_eq _ _ _ (by norm_num) (by norm_num)
    simp only [totalLen, he]
    norm_num
  exact ⟨hpos, (getPointAlongPath_endpoints _ hpos).1, (getPointAlongPath_endpoints _ hpos).2⟩

/-! ## Geometry: nearest-point projection onto a polyline

`projectPointOntoPolyline(point, polyline)` scans the segments in order,
computes per segment the clamped scalar projection (guarding the
zero-length segment with `t = 0`), and keeps the candidate with the
strictly smallest distance — `bestDist` starts at `Infinity`, modelled by
`⊤ : WithTop ℝ`. -/

/-- Distance from `point` to a candidate, as the source computes it:
`Math.hypot(point.x - proj.x, point.y - proj.y)`. -/
noncomputable def pointDist (point proj : Point) : ℝ :=
  hypot (point.x - proj.x) (point.y - proj.y)

/-- The per-segment candidate `p0 + t * v` with
`t = c2 === 0 ? 0 : clamp(c1 / c2, 0, 1)`. -/
noncomputable def segClosest (point p0 p1 : Point) : Point :=
  let vx := p1.x - p0.x
  let vy := p1.y - p0.y
  let wx := point.x - p0.x
  let wy := point.y - p0.y
  let c1 := vx * wx + vy * wy
  let c2 := vx * vx + vy * vy
  let t := if c2 = 0 then 0 else max 0 (min 1 (c1 / c2))
  ⟨p0.x + t * vx, p0.y + t * vy⟩

/-- Point on segment `s` at parameter `t` (for stating that results lie on
a segment; the segment loop's candidates have this shape). -/
noncomputable def lerpSeg (s : Point × Point) (t : ℝ) : Point :=
  ⟨s.1.x + t * (s.2.x - s.1.x), s.1.y + t * (s.2.y - s.1.y)⟩

/-- The best-candidate loop of `projectPointOntoPolyline` over the list of
consecutive segment pairs, carrying `(bestDist, bestPoint)`. -/
noncomputable def projLoop (point : Point) :
    List (Point × Point) → WithTop ℝ × Point → WithTop ℝ × Point
  | [], best => best
  | s :: rest, (bestDist, bestPoint) =>
    let proj := segClosest point s.1 s.2
    let d := pointDist point proj
    if (d : WithTop ℝ) < bestDist then projLoop point rest (d, proj)
    else projLoop point rest (bestDist, bestPoint)

/-- Function `projectPointOntoPolyline` from the source: degenerate guards, then the
loop over consecutive point pairs starting from
`bestDist = Infinity, bestPoint = polyline[0]`. -/
noncomputable def projectPointOntoPolyline (point : Point) (polyline : List Point) : Point :=
  match polyline with
  | [] => point
  | [q] => q
  | q :: b :: rest =>
    (projLoop point ((q :: b :: rest).zip (b :: rest)) (⊤, q)).2

theorem segClosest_is_lerp (point p0 p1 : Point) :
    ∃ t, 0 ≤ t ∧ t ≤ 1 ∧ segClosest point p0 p1 = lerpSeg (p0, p1) t := by
  simp only [segClosest, lerpSeg]
  by_cases hc2 : (p1.x - p0.x) * (p1.x - p0.x) + (p1.y - p0.y) * (p1.y - p0.y) = 0
  · exact ⟨0, le_refl 0, by norm_num, by simp [hc2]⟩
  · refine ⟨max 0 (min 1 (((p1.x - p0.x) * (point.x - p0.x) +
      (p1.y - p0.y) * (point.y - p0.y)) /
      ((p1.x - p0.x) * (p1.x - p0.x) + (p1.y - p0.y) * (p1.y - p0.y)))), le_max_left _ _,
      max_le (by norm_num) (min_le_left _ _), by simp [hc2]⟩

/-- Squared distance, used to transfer distance comparisons through the
monotone square root. -/
noncomputable def distSq (point proj : Point) : ℝ :=
  (point.x - proj.x) ^ 2 + (point.y - proj.y) ^ 2

theorem pointDist_eq_sqrt_distSq (point proj : Point) :
    pointDist point proj = Real.sqrt (distSq point proj) := rfl

theorem pointDist_mono (point a b : Point) (h : distSq point a ≤ distSq point b) :
    pointDist point a ≤ pointDist point b := by
  rw [pointDist_eq_sqrt_distSq, pointDist_eq_sqrt_distSq]
  exact Real.sqrt_le_sqrt h

/-- The clamped scalar projection minimizes the distance to the segment
over the whole parameter range `[0, 1]`. -/
theorem segClosest_min (point p0 p1 : Point) (t : ℝ) (h0 : 0 ≤ t) (h1 : t ≤ 1) :
    pointDist point (segClosest point p0 p1) ≤ pointDist point (lerpSeg (p0, p1) t) := by
  apply pointDist_mono
  set vx := p1.x - p0.x with hvx
  set vy := p1.y - p0.y with hvy
  set wx := point.x - p0.x with hwx
  set wy := point.y - p0.y with hwy
  have hexp : ∀ u : ℝ, distSq point (lerpSeg (p0, p1) u) =
      (vx * vx + vy * vy) * u ^ 2 - 2 * (vx * wx + vy * wy) * u + (wx ^ 2 + wy ^ 2) := by
    intro u
    simp only [distSq, lerpSeg, hvx, hvy, hwx, hwy]
    ring
  have hseg : segClosest point p0 p1 =
      lerpSeg (p0, p1) (if vx * vx + vy * vy = 0 then 0
        else max 0 (min 1 ((vx * wx + vy * wy) / (vx * vx + vy * vy)))) := by
    simp only [segClosest, lerpSeg, hvx, hvy, hwx, hwy]
  rw [hseg, hexp, hexp]
  set c1 := vx * wx + vy * wy with hc1
  set c2 := vx * vx + vy * vy with hc2
  have hc2nn : 0 ≤ c2 := by
    rw [hc2]
    nlinarith [mul_self_nonneg vx, mul_self_nonneg vy]
  by_cases h : c2 = 0
  · have hvx0 : vx = 0 := by nlinarith [mul_self_nonneg vx, mul_self_nonneg vy]
    have hvy0 : vy = 0 := by nlinarith [mul_self_nonneg vx, mul_self_nonneg vy]
    have hc10 : c1 = 0 := by rw [hc1, hvx0, hvy0]; ring
    rw [if_pos h, h, hc10]
    simp
  · have hc2pos : 0 < c2 := lt_of_le_of_ne hc2nn (Ne.symm h)
    rw [if_neg h]
    set u := c1 / c2 with hu
    have hc1u : c1 = u * c2 := by
      rw [hu]
      field_simp
    rcases le_or_lt u 0 with hul | hur
    · have hmax : max 0 (min 1 u) = 0 := by
        rw [min_eq_right (le_trans hul (by norm_num)), max_eq_left hul]
      rw [hmax]
      have hc1le : c1 ≤ 0 := by nlinarith
      nlinarith [mul_nonneg hc2pos.le (sq_nonneg t), mul_nonneg (neg_nonneg.mpr hc1le) h0]
    · rcases le_or_lt 1 u with hu1 | hu1
      · have hmax : max 0 (min 1 u) = 1 := by
          rw [min_eq_left hu1, max_eq_right (by norm_num)]
        rw [hmax]
        nlinarith [mul_nonneg (mul_nonneg hc2pos.le (sub_nonneg.mpr h1))
          (by linarith : (0 : ℝ) ≤ 2 * u - 1 - t)]
      · have hmax : max 0 (min 1 u) = u := by
          rw [min_eq_right hu1.le, max_eq_right hur.le]
        rw [hmax]
        nlinarith [mul_nonneg hc2pos.le (sq_nonneg (t - u))]

/-- Fold invariant of the best-candidate loop: either nothing improved on
the incoming best, or the result is the candidate of the first segment
achieving the final minimum (strictly better than everything before it,
and no worse than every candidate). -/
theorem projLoop_invariant (point : Point) :
    ∀ (cs : List (Point × Point)) (bd : WithTop ℝ) (bp : Point),
      (projLoop point cs (bd, bp) = (bd, bp) ∧
        ∀ c ∈ cs, bd ≤ ((pointDist point (segClosest point c.1 c.2) : ℝ) : WithTop ℝ)) ∨
      (∃ l₁ c l₂, cs = l₁ ++ c :: l₂ ∧
        (projLoop point cs (bd, bp)).2 = segClosest point c.1 c.2 ∧
        (projLoop point cs (bd, bp)).1 =
          ((pointDist point (segClosest point c.1 c.2) : ℝ) : WithTop ℝ) ∧
        (projLoop point cs (bd, bp)).1 < bd ∧
        (∀ c' ∈ l₁, (projLoop point cs (bd, bp)).1 <
          ((pointDist point (segClosest point c'.1 c'.2) : ℝ) : WithTop ℝ)) ∧
        (∀ c' ∈ cs, (projLoop point cs (bd, bp)).1 ≤
          ((pointDist point (segClosest point c'.1 c'.2) : ℝ) : WithTop ℝ))) := by
  intro cs
  induction cs with
  | nil =>
    intro bd bp
    left
    exact ⟨rfl, by simp⟩
  | cons c0 rest ih =>
    intro bd bp
    by_cases hlt : ((pointDist point (segClosest point c0.1 c0.2) : ℝ) : WithTop ℝ) < bd
    · have hstep : projLoop point (c0 :: rest) (bd, bp) =
          projLoop point rest
            (((pointDist point (segClosest point c0.1 c0.2) : ℝ) : WithTop ℝ),
              segClosest point c0.1 c0.2) := by
        simp only [projLoop, if_pos hlt]
      rcases ih ((pointDist point (segClosest point c0.1 c0.2) : ℝ) : WithTop ℝ)
          (segClosest point c0.1 c0.2) with ⟨heq, hall⟩ | ⟨l₁, c, l₂, hsplit, h2, h1, hlt', hstrict, hall⟩
      · right
        refine ⟨[], c0, rest, by simp, ?_, ?_, ?_, ?_, ?_⟩
        · rw [hstep, heq]
        · rw [hstep, heq]
        · rw [hstep, heq]
          exact hlt
        · intro c' hc'
          simp at hc'
        · intro c' hc'
          rcases List.mem_cons.mp hc' with rfl | hc'
          · rw [hstep, heq]
          · rw [hstep, heq]
            exact hall c' hc'
      · right
        refine ⟨c0 :: l₁, c, l₂, by rw [hsplit]; rfl, ?_, ?_, ?_, ?_, ?_⟩
        · rw [hstep]
          exact h2
        · rw [hstep]
          exact h1
        · rw [hstep]
          exact lt_trans hlt' hlt
        · intro c' hc'
          rcases List.mem_cons.mp hc' with rfl | hc'
          · rw [hstep]
            exact hlt'
          · rw [hstep]
            exact hstrict c' hc'
        · intro c' hc'
          rcases List.mem_cons.mp hc' with rfl | hc'
          · rw [hstep]
            exact hlt'.le
          · rw [hstep]
            exact hall c' hc'
    · have hge : bd ≤ ((pointDist point (segClosest point c0.1 c0.2) : ℝ) : WithTop ℝ) :=
        not_lt.mp hlt
      have hstep : projLoop point (c0 :: rest) (bd, bp) = projLoop point rest (bd, bp) := by
        simp only [projLoop, if_neg hlt]
      rcases ih bd bp with ⟨heq, hall⟩ | ⟨l₁, c, l₂, hsplit, h2, h1, hlt', hstrict, hall⟩
      · left
        refine ⟨by rw [hstep, heq], ?_⟩
        intro c' hc'
        rcases List.mem_cons.mp hc' with rfl | hc'
        · exact hge
        · exact hall c' hc'
      · right
        refine ⟨c0 :: l₁, c, l₂, by rw [hsplit]; rfl, ?_, ?_, ?_, ?_, ?_⟩
        · rw [hstep]
          exact h2
        · rw [hstep]
          exact h1
        · rw [hstep]
          exact hlt'
        · intro c' hc'
          rcases List.mem_cons.mp hc' with rfl | hc'
          · rw [hstep]
            exact lt_of_lt_of_le hlt' hge
          · rw [hstep]
            exact hstrict c' hc'
        · intro c' hc'
          rcases List.mem_cons.mp hc' with rfl | hc'
          · rw [hstep]
            exact (lt_of_lt_of_le hlt' hge).le
          · rw [hstep]
            exact hall c' hc'

theorem lerpSeg_zero (s : Point × Point) : lerpSeg s 0 = s.1 := by
  simp only [lerpSeg]
  ext <;> simp

theorem lerpSeg_one (s : Point × Point) : lerpSeg s 1 = s.2 := by
  simp only [lerpSeg]
  ext <;> simp <;> ring

/-- Every vertex of a polyline with at least two points is an endpoint of
one of its consecutive-pair segments. -/
theorem mem_zip_endpoints (rest : List Point) :
    ∀ (a b v : Point), v ∈ a :: b :: rest →
      ∃ s ∈ (a :: b :: rest).zip (b :: rest), v = s.1 ∨ v = s.2 := by
  induction rest with
  | nil =>
    intro a b v hv
    rcases List.mem_cons.mp hv with h | hv
    · subst h
      exact ⟨(v, b), by simp, Or.inl rfl⟩
    · rcases List.mem_cons.mp hv with h | hv
      · subst h
        exact ⟨(a, v), by simp, Or.inr rfl⟩
      · simp at hv
  | cons c r ih =>
    intro a b v hv
    rcases List.mem_cons.mp hv with h | hv
    · subst h
      exact ⟨(v, b), by simp, Or.inl rfl⟩
    · obtain ⟨s, hs, hvs⟩ := ih b c v hv
      exact ⟨s, by simp [List.zip_cons_cons] at hs ⊢; tauto, hvs⟩

/-- C2: Nearest-point projection.  For every point and every polyline with
at least two points, the result is the clamped per-segment projection of
the first segment achieving the minimal distance (strictly better than
every earlier segment's candidate — first-found tie-break), it lies on
that segment (parameter in `[0, 1]`), its distance to the point is minimal
over all points of all segments and in particular over all vertices; and
projecting `(12, 5)` onto `[(0,0), (10,0), (10,10)]` gives `(10, 5)`. -/
theorem projectPointOntoPolyline_nearest :
    (∀ (point q b : Point) (rest : List Point),
      ∃ l₁ s l₂, (q :: b :: rest).zip (b :: rest) = l₁ ++ s :: l₂ ∧
        projectPointOntoPolyline point (q :: b :: rest) = segClosest point s.1 s.2 ∧
        (∃ t, 0 ≤ t ∧ t ≤ 1 ∧
          projectPointOntoPolyline point (q :: b :: rest) = lerpSeg s t) ∧
        (∀ s' ∈ l₁, pointDist point (projectPointOntoPolyline point (q :: b :: rest)) <
          pointDist point (segClosest point s'.1 s'.2)) ∧
        (∀ s' ∈ (q :: b :: rest).zip (b :: rest), ∀ t, 0 ≤ t → t ≤ 1 →
          pointDist point (projectPointOntoPolyline point (q :: b :: rest)) ≤
            pointDist point (lerpSeg s' t)) ∧
        (∀ v ∈ q :: b :: rest,
          pointDist point (projectPointOntoPolyline point (q :: b :: rest)) ≤
            pointDist point v)) ∧
    projectPointOntoPolyline ⟨12, 5⟩ [⟨0, 0⟩, ⟨10, 0⟩, ⟨10, 10⟩] = ⟨10, 5⟩ := by
  constructor
  · intro point q b rest
    have hres : projectPointOntoPolyline point (q :: b :: rest) =
        (projLoop point ((q :: b :: rest).zip (b :: rest)) (⊤, q)).2 := rfl
    rcases projLoop_invariant point ((q :: b :: rest).zip (b :: rest)) ⊤ q with
      ⟨_, hall⟩ | ⟨l₁, s, l₂, hsplit, h2, h1, _, hstrict, hall⟩
    · exfalso
      have hmem : ((q, b) : Point × Point) ∈ (q :: b :: rest).zip (b :: rest) := by
        simp [List.zip_cons_cons]
      exact absurd (hall (q, b) hmem) (by simp)
    · have hclose : pointDist point (projectPointOntoPolyline point (q :: b :: rest)) =
          pointDist point (segClosest point s.1 s.2) := by
        rw [hres, h2]
      refine ⟨l₁, s, l₂, hsplit, by rw [hres]; exact h2, ?_, ?_, ?_, ?_⟩
      · obtain ⟨t, ht0, ht1, hlt⟩ := segClosest_is_lerp point s.1 s.2
        exact ⟨t, ht0, ht1, by rw [hres, h2, hlt]⟩
      · intro s' hs'
        have := hstrict s' hs'
        rw [h1] at this
        rw [hclose]
        exact_mod_cast this
      · intro s' hs' t ht0 ht1
        have hle : pointDist point (segClosest point s.1 s.2) ≤
            pointDist point (segClosest point s'.1 s'.2) := by
          have := hall s' hs'
          rw [h1] at this
          exact_mod_cast this
        rw [hclose]
        exact hle.trans (segClosest_min point s'.1 s'.2 t ht0 ht1)
      · intro v hv
        obtain ⟨s', hs', hvs⟩ := mem_zip_endpoints rest q b v hv
        have hle : pointDist point (segClosest point s.1 s.2) ≤
            pointDist point (segClosest point s'.1 s'.2) := by
          have := hall s' hs'
          rw [h1] at this
          exact_mod_cast this
        rw [hclose]
        rcases hvs with rfl | rfl
        · have := segClosest_min point s'.1 s'.2 0 (le_refl 0) (by norm_num)
          rw [lerpSeg_zero] at this
          exact hle.trans this
        · have := segClosest_min point s'.1 s'.2 1 (by norm_num) (le_refl 1)
          rw [lerpSeg_one] at this
          exact hle.trans this
  · -- scenario C: the two candidates are (10, 0) at distance √29 and
    -- (10, 5) at distance 2; the second strictly improves and wins
    have hp1 : segClosest ⟨12, 5⟩ ⟨0, 0⟩ ⟨10, 0⟩ = (⟨10, 0⟩ : Point) := by
      simp only [segClosest]
      norm_num
    have hp2 : segClosest ⟨12, 5⟩ ⟨10, 0⟩ ⟨10, 10⟩ = (⟨10, 5⟩ : Point) := by
      simp only [segClosest]
      norm_num [min_def, max_def]
    have hd1 : pointDist ⟨12, 5⟩ ⟨10, 0⟩ = Real.sqrt 29 := by
      simp only [pointDist, hypot]
      norm_num
    have hd2 : pointDist ⟨12, 5⟩ ⟨10, 5⟩ = 2 := by
      simp only [pointDist]
      rw [show ((12 : ℝ) - 10) = 2 by norm_num, show ((5 : ℝ) - 5) = 0 by norm_num]
      exact hypot_eq _ _ _ (by norm_num) (by norm_num)
    have hlt1 : ((pointDist ⟨12, 5⟩ ⟨10, 0⟩ : ℝ) : WithTop ℝ) < ⊤ := WithTop.coe_lt_top _
    have hlt2 : ((pointDist ⟨12, 5⟩ ⟨10, 5⟩ : ℝ) : WithTop ℝ) <
        ((pointDist ⟨12, 5⟩ ⟨10, 0⟩ : ℝ) : WithTop ℝ) := by
      rw [hd1, hd2]
      rw [WithTop.coe_lt_coe]
      rw [Real.lt_sqrt (by norm_num)]
      norm_num
    show (projLoop ⟨12, 5⟩ [((⟨0, 0⟩ : Point), (⟨10, 0⟩ : Point)),
      ((⟨10, 0⟩ : Point), (⟨10, 10⟩ : Point))] (⊤, ⟨0, 0⟩)).2 = ⟨10, 5⟩
    rw [projLoop]
    simp only [hp1]
    rw [if_pos hlt1]
    rw [projLoop]
    simp only [hp2]
    rw [if_pos hlt2]
    rw [projLoop]

/-- C2 witness: the vertex bound of `projectPointOntoPolyline_nearest`
instantiated on scenario C at the vertex `(0, 0)`. -/
theorem projectPointOntoPolyline_nearest_witness :
    pointDist ⟨12, 5⟩ (projectPointOntoPolyline ⟨12, 5⟩ [⟨0, 0⟩, ⟨10, 0⟩, ⟨10, 10⟩]) ≤
      pointDist ⟨12, 5⟩ ⟨0, 0⟩ := by
  obtain ⟨l₁, s, l₂, hsplit, h2, hlerp, hstrict, hallseg, hvert⟩ :=
    projectPointOntoPolyline_nearest.1 ⟨12, 5⟩ ⟨0, 0⟩ ⟨10, 0⟩ [⟨10, 10⟩]
  exact hvert ⟨0, 0⟩ (by simp)

/-! ## Path Registry

`getLinePointsBetweenStations` resolves an unordered station pair to a
polyline: first a real railway line containing both stations (used when it
has at least two coordinates), then the hard-coded `trackSegments`
fallback, else `null`. -/

/-- A station record; only the fields the engine reads. -/
structure Station where
  id : String
  position : Point

/-- A real railway line from `railwayMapService` (pixel coordinates). -/
structure RailwayLine where
  id : String
  stations : List String
  coordinates : List Point

/-- A hard-coded fallback track segment (`start`/`end` in the source). -/
structure TrackSegment where
  id : String
  startPoint : Point
  endPoint : Point
  stations : List String

/-- The module-level `trackSegments` constant: the two segments of the
Mehsana → Ahmedabad → Vadodara route. -/
noncomputable def trackSegments : List TrackSegment :=
  [{ id := "MSH-ADI", startPoint := ⟨350, 250⟩, endPoint := ⟨400, 300⟩,
     stations := ["ST002", "ST001"] },
   { id := "ADI-BRC", startPoint := ⟨400, 300⟩, endPoint := ⟨450, 350⟩,
     stations := ["ST001", "ST003"] }]

/-- The `trackSegments` fallback lookup of `getLinePointsBetweenStations`:
a matching segment yields the two-point path `[start, end]`. -/
noncomputable def fallbackTrackPoints (a b : String) : Option (List Point) :=
  match trackSegments.find? (fun seg => seg.stations.contains a && seg.stations.contains b) with
  | some seg => some [seg.startPoint, seg.endPoint]
  | none => none

/-- Function `getLinePointsBetweenStations`, parametrized by the `realLines` state. -/
noncomputable def getLinePointsBetweenStations (realLines : List RailwayLine)
    (a b : String) : Option (List Point) :=
  match realLines.find? (fun line => line.stations.contains a && line.stations.contains b) with
  | some realLine =>
    if 2 ≤ realLine.coordinates.length then some realLine.coordinates
    else fallbackTrackPoints a b
  | none => fallbackTrackPoints a b

/-! ## Path-Following Animator

The `setInterval` body of the train-animation effect, per train.  The
random draws (`getRandomSpeed` plus variation) are an input `rawSpeed`;
the nested `setTrainProgress`/`setAnimatedTrains` updaters are composed
into one transition on `(train, progress map)`.  The progress map models
the `trainProgress` record with its `|| 0` default folded in. -/

/-- JavaScript `Array.indexOf`: `-1` when the element is absent (Lean's
`List.indexOf` returns the length instead). -/
def jsIndexOf (l : List String) (s : String) : Int :=
  if l.indexOf s = l.length then -1 else l.indexOf s

/-- The unresolved-path branch of the tick: round the speed, snap the
position to the current station's known position (or keep it), leave the
stations and the stored progress unchanged. -/
noncomputable def holdTrain (stations : List Station) (newSpeed : ℝ) (train : Train) : Train :=
  { train with
    speed := ((round newSpeed : ℤ) : ℝ)
    position :=
      match stations.find? (fun s => s.id == train.currentStation) with
      | some st => st.position
      | none => train.position }

/-- One animation tick for one train: speed clamping, route lookup,
next-station computation, path resolution, progress increment with
wraparound and station advance, and position from the previous tick's
progress plus the rotating spacing offset. -/
noncomputable def trainTick (realLines : List RailwayLine) (stations : List Station)
    (trainRoutes : String → Option (List String)) (rawSpeed : ℝ) (index : ℕ)
    (train : Train) (prog : String → ℝ) : Train × (String → ℝ) :=
  if isManualId train.id then (train, prog)
  else
    let newSpeed := max 30 (min train.maxSpeed rawSpeed)
    let trainRoute := (trainRoutes train.id).getD train.route
    let nextStationIndex :=
      ((jsIndexOf trainRoute train.currentStation + 1) % (trainRoute.length : ℤ)).toNat
    match trainRoute.get? nextStationIndex with
    | none => (holdTrain stations newSpeed train, prog)
    | some nextStationId =>
      match getLinePointsBetweenStations realLines train.currentStation nextStationId with
      | none => (holdTrain stations newSpeed train, prog)
      | some pathPoints =>
        if 2 ≤ pathPoints.length then
          let progressIncrement := newSpeed / 100 * (if 0 < train.delay then (0.7 : ℝ) else 1) * 0.015
          let finalProgress := min 0.95 (prog train.id + ((index % 3 : ℕ) : ℝ) * 0.1)
          let moved : Train :=
            { train with
              speed := ((round newSpeed : ℤ) : ℝ)
              position := (getPointAlongPath pathPoints finalProgress).position }
          if 1 ≤ prog train.id + progressIncrement then
            ({ moved with
                currentStation := nextStationId
                nextStation := trainRoute.getD ((nextStationIndex + 1) % trainRoute.length) "" },
             fun id => if id = train.id then 0 else prog id)
          else
            (moved,
             fun id => if id = train.id then prog train.id + progressIncrement else prog id)
        else (holdTrain stations newSpeed train, prog)

/-- The whole tick over the train list, threading the progress map through
the per-train updates in list order (`index` is the map index). -/
noncomputable def tickAll (realLines : List RailwayLine) (stations : List Station)
    (trainRoutes : String → Option (List String)) (rawSpeeds : ℕ → ℝ) :
    ℕ → List Train → (String → ℝ) → List Train × (String → ℝ)
  | _, [], prog => ([], prog)
  | i, t :: ts, prog =>
    let r := trainTick realLines stations trainRoutes (rawSpeeds i) i t prog
    let rs := tickAll realLines stations trainRoutes rawSpeeds (i + 1) ts r.2
    (r.1 :: rs.1, rs.2)

theorem trainTick_manual_eq (realLines : List RailwayLine) (stations : List Station)
    (trainRoutes : String → Option (List String)) (rawSpeed : ℝ) (index : ℕ)
    (train : Train) (prog : String → ℝ) (h : isManualId train.id = true) :
    trainTick realLines stations trainRoutes rawSpeed index train prog = (train, prog) := by
  simp only [trainTick, h, if_true]

/-- The per-train update writes no progress key other than the train's own. -/
theorem trainTick_prog_ne (realLines : List RailwayLine) (stations : List Station)
    (trainRoutes : String → Option (List String)) (rawSpeed : ℝ) (index : ℕ)
    (train : Train) (prog : String → ℝ) (id : String) (hne : id ≠ train.id) :
    (trainTick realLines stations trainRoutes rawSpeed index train prog).2 id = prog id := by
  simp only [trainTick]
  split
  · rfl
  · split
    · rfl
    · split
      · rfl
      · split
        · split <;> split <;> simp [hne]
        · rfl

theorem trainTick_prog_manual (realLines : List RailwayLine) (stations : List Station)
    (trainRoutes : String → Option (List String)) (rawSpeed : ℝ) (index : ℕ)
    (train : Train) (prog : String → ℝ) (id : String) (hid : isManualId id = true) :
    (trainTick realLines stations trainRoutes rawSpeed index train prog).2 id = prog id := by
  by_cases hM : isManualId train.id = true
  · rw [trainTick_manual_eq _ _ _ _ _ _ _ hM]
  · refine trainTick_prog_ne _ _ _ _ _ _ _ _ ?_
    intro heq
    rw [heq] at hid
    exact hM hid

theorem tickAll_prog_manual (realLines : List RailwayLine) (stations : List Station)
    (trainRoutes : String → Option (List String)) (rawSpeeds : ℕ → ℝ)
    (id : String) (hid : isManualId id = true) :
    ∀ (trains : List Train) (i : ℕ) (prog : String → ℝ),
      (tickAll realLines stations trainRoutes rawSpeeds i trains prog).2 id = prog id := by
  intro trains
  induction trains with
  | nil => intro i prog; rfl
  | cons t ts ih =>
    intro i prog
    simp only [tickAll]
    rw [ih]
    exact trainTick_prog_manual _ _ _ _ _ _ _ _ hid

/-- The next-station index computed by the tick, under the JS `indexOf`
semantics, when the current station occurs in the route at index `ci`. -/
theorem jsIndexOf_next (route : List String) (st : String) (ci : ℕ)
    (hmem : st ∈ route) (hci : route.indexOf st = ci) :
    ((jsIndexOf route st + 1) % (route.length : ℤ)).toNat = (ci + 1) % route.length := by
  have hlt : ci < route.length := hci ▸ List.indexOf_lt_length.mpr hmem
  have hji : jsIndexOf route st = (ci : ℤ) := by
    simp only [jsIndexOf, hci]
    rw [if_neg (Nat.ne_of_lt hlt)]
  rw [hji]
  rw [show ((ci : ℤ) + 1) = ((ci + 1 : ℕ) : ℤ) by push_cast; ring]
  rw [← Int.natCast_mod, Int.toNat_natCast]

/-- C10: Manually placed trains are exempt from animation.  A tick maps
any train whose id begins with `'M'` to itself, with the progress map
untouched; and across the whole per-tick list fold, every manual train
comes out unchanged at its position in the list and its stored progress
entry is identical, regardless of the other trains. -/
theorem manual_trains_unchanged :
    (∀ (realLines : List RailwayLine) (stations : List Station)
        (trainRoutes : String → Option (List String)) (rawSpeed : ℝ) (index : ℕ)
        (train : Train) (prog : String → ℝ),
      isManualId train.id = true →
      trainTick realLines stations trainRoutes rawSpeed index train prog = (train, prog)) ∧
    (∀ (realLines : List RailwayLine) (stations : List Station)
        (trainRoutes : String → Option (List String)) (rawSpeeds : ℕ → ℝ)
        (trains : List Train) (i : ℕ) (prog : String → ℝ) (j : ℕ) (t : Train),
      trains.get? j = some t → isManualId t.id = true →
      (tickAll realLines stations trainRoutes rawSpeeds i trains prog).1.get? j = some t ∧
      (tickAll realLines stations trainRoutes rawSpeeds i trains prog).2 t.id = prog t.id) := by
  constructor
  · intro realLines stations trainRoutes rawSpeed index train prog h
    exact trainTick_manual_eq _ _ _ _ _ _ _ h
  · intro realLines stations trainRoutes rawSpeeds trains
    induction trains with
    | nil =>
      intro i prog j t hj _
      simp at hj
    | cons t0 ts ih =>
      intro i prog j t hj hm
      cases j with
      | zero =>
        simp only [List.get?_cons_zero, Option.some.injEq] at hj
        subst hj
        have ht0 := trainTick_manual_eq realLines stations trainRoutes (rawSpeeds i) i t0 prog hm
        constructor
        · simp only [tickAll, ht0, List.get?_cons_zero]
        · simp only [tickAll, ht0]
          exact tickAll_prog_manual _ _ _ _ _ hm ts (i + 1) prog
      | succ j' =>
        simp only [List.get?_cons_succ] at hj
        obtain ⟨h1, h2⟩ := ih (i + 1)
          (trainTick realLines stations trainRoutes (rawSpeeds i) i t0 prog).2 j' t hj hm
        constructor
        · simp only [tickAll, List.get?_cons_succ]
          exact h1
        · simp only [tickAll]
          rw [h2]
          exact trainTick_prog_manual _ _ _ _ _ _ _ _ hm

/-- C10 witness: a concrete manual train `M1` in a two-train list is
returned unchanged by the tick and keeps its stored progress. -/
theorem manual_trains_unchanged_witness :
    (isManualId "M1" = true) ∧
    ((tickAll [] [] (fun _ => none) (fun _ => 50) 0
        [{ id := "M1", currentStation := "ST001", nextStation := "ST002", speed := 0,
           maxSpeed := 120, delay := 0, route := [], position := ⟨3, 4⟩ }]
        (fun _ => 0.25)).1.get? 0 =
      some { id := "M1", currentStation := "ST001", nextStation := "ST002", speed := 0,
             maxSpeed := 120, delay := 0, route := [], position := ⟨3, 4⟩ } ∧
     (tickAll [] [] (fun _ => none) (fun _ => 50) 0
        [{ id := "M1", currentStation := "ST001", nextStation := "ST002", speed := 0,
           maxSpeed := 120, delay := 0, route := [], position := ⟨3, 4⟩ }]
        (fun _ => 0.25)).2 "M1" = 0.25) := by
  refine ⟨rfl, ?_⟩
  have h := manual_trains_unchanged.2 [] [] (fun _ => none) (fun _ => 50)
    [{ id := "M1", currentStation := "ST001", nextStation := "ST002", speed := 0,
       maxSpeed := 120, delay := 0, route := [], position := ⟨3, 4⟩ }] 0 (fun _ => 0.25) 0
    { id := "M1", currentStation := "ST001", nextStation := "ST002", speed := 0,
      maxSpeed := 120, delay := 0, route := [], position := ⟨3, 4⟩ } rfl rfl
  exact h

/-- C9: Hold-position fallback.  On a tick where the tick's station pair
resolves to no polyline (no real line and no fallback segment), the train
keeps its stations, its stored progress entry is not updated, and its
position is snapped to the current station's known position — or left
unchanged when the station is unknown too; the transition is total, so no
input makes it fail. -/
theorem trainTick_hold_position (realLines : List RailwayLine) (stations : List Station)
    (trainRoutes : String → Option (List String)) (rawSpeed : ℝ) (index : ℕ)
    (train : Train) (prog : String → ℝ) (route : List String) (ci : ℕ) (nid : String)
    (hM : isManualId train.id = false)
    (hroute : (trainRoutes train.id).getD train.route = route)
    (hmem : train.currentStation ∈ route)
    (hci : route.indexOf train.currentStation = ci)
    (hnid : route.get? ((ci + 1) % route.length) = some nid)
    (hpath : getLinePointsBetweenStations realLines train.currentStation nid = none) :
    (trainTick realLines stations trainRoutes rawSpeed index train prog).2 = prog ∧
    (trainTick realLines stations trainRoutes rawSpeed index train prog).1.position =
      ((stations.find? (fun s => s.id == train.currentStation)).map Station.position).getD
        train.position ∧
    (trainTick realLines stations trainRoutes rawSpeed index train prog).1.currentStation =
      train.currentStation ∧
    (trainTick realLines stations trainRoutes rawSpeed index train prog).1.nextStation =
      train.nextStation := by
  have hstep : trainTick realLines stations trainRoutes rawSpeed index train prog =
      (holdTrain stations (max 30 (min train.maxSpeed rawSpeed)) train, prog) := by
    simp only [trainTick, hM, Bool.false_eq_true, if_false, hroute,
      jsIndexOf_next route train.currentStation ci hmem hci, hnid, hpath]
  rw [hstep]
  refine ⟨rfl, ?_, rfl, rfl⟩
  simp only [holdTrain]
  cases hfind : stations.find? (fun s => s.id == train.currentStation) <;> simp [hfind]

/-- C9 witness: a train between two unknown stations `ZZ1`/`ZZ2` (empty
line registry, no matching fallback segment) holds position at its current
station's known position and keeps its stored progress. -/
theorem trainTick_hold_position_witness :
    ((trainTick [] [⟨"ZZ1", ⟨7, 8⟩⟩] (fun _ => none) 50 0
        { id := "T1", currentStation := "ZZ1", nextStation := "ZZ2", speed := 0,
          maxSpeed := 120, delay := 0, route := ["ZZ1", "ZZ2"], position := ⟨1, 2⟩ }
        (fun _ => 0.4)).2 = (fun _ => (0.4 : ℝ)) ∧
     (trainTick [] [⟨"ZZ1", ⟨7, 8⟩⟩] (fun _ => none) 50 0
        { id := "T1", currentStation := "ZZ1", nextStation := "ZZ2", speed := 0,
          maxSpeed := 120, delay := 0, route := ["ZZ1", "ZZ2"], position := ⟨1, 2⟩ }
        (fun _ => 0.4)).1.position = (⟨7, 8⟩ : Point) ∧
     (trainTick [] [⟨"ZZ1", ⟨7, 8⟩⟩] (fun _ => none) 50 0
        { id := "T1", currentStation := "ZZ1", nextStation := "ZZ2", speed := 0,
          maxSpeed := 120, delay := 0, route := ["ZZ1", "ZZ2"], position := ⟨1, 2⟩ }
        (fun _ => 0.4)).1.currentStation = "ZZ1") := by
  obtain ⟨h1, h2, h3, _⟩ := trainTick_hold_position [] [⟨"ZZ1", ⟨7, 8⟩⟩] (fun _ => none) 50 0
    { id := "T1", currentStation := "ZZ1", nextStation := "ZZ2", speed := 0,
      maxSpeed := 120, delay := 0, route := ["ZZ1", "ZZ2"], position := ⟨1, 2⟩ }
    (fun _ => 0.4) ["ZZ1", "ZZ2"] 0 "ZZ2" rfl rfl (List.mem_cons_self _ _) rfl rfl rfl
  exact ⟨h1, by rw [h2]; rfl, h3⟩

/-- C5: Progress wraparound.  On a tick with a resolved path, the stored
progress becomes `old + increment` where the increment is
`(clampedSpeed / 100) * (0.7 if delayed else 1) * 0.015`, except that when
`old + increment >= 1` it becomes exactly `0` and the train's
`(currentStation, nextStation)` pair advances together one step along its
route, wrapping past the route's end; otherwise the pair is unchanged. -/
theorem trainTick_wraparound (realLines : List RailwayLine) (stations : List Station)
    (trainRoutes : String → Option (List String)) (rawSpeed : ℝ) (index : ℕ)
    (train : Train) (prog : String → ℝ) (route : List String) (ci : ℕ) (nid : String)
    (pathPoints : List Point)
    (hM : isManualId train.id = false)
    (hroute : (trainRoutes train.id).getD train.route = route)
    (hmem : train.currentStation ∈ route)
    (hci : route.indexOf train.currentStation = ci)
    (hnid : route.get? ((ci + 1) % route.length) = some nid)
    (hpath : getLinePointsBetweenStations realLines train.currentStation nid = some pathPoints)
    (hlen : 2 ≤ pathPoints.length) :
    ((trainTick realLines stations trainRoutes rawSpeed index train prog).2 train.id =
      if 1 ≤ prog train.id + max 30 (min train.maxSpeed rawSpeed) / 100 *
          (if 0 < train.delay then (0.7 : ℝ) else 1) * 0.015
      then 0
      else prog train.id + max 30 (min train.maxSpeed rawSpeed) / 100 *
          (if 0 < train.delay then (0.7 : ℝ) else 1) * 0.015) ∧
    (1 ≤ prog train.id + max 30 (min train.maxSpeed rawSpeed) / 100 *
        (if 0 < train.delay then (0.7 : ℝ) else 1) * 0.015 →
      (trainTick realLines stations trainRoutes rawSpeed index train prog).1.currentStation =
        nid ∧
      (trainTick realLines stations trainRoutes rawSpeed index train prog).1.nextStation =
        route.getD ((ci + 2) % route.length) "") ∧
    (¬ 1 ≤ prog train.id + max 30 (min train.maxSpeed rawSpeed) / 100 *
        (if 0 < train.delay then (0.7 : ℝ) else 1) * 0.015 →
      (trainTick realLines stations trainRoutes rawSpeed index train prog).1.currentStation =
        train.currentStation ∧
      (trainTick realLines stations trainRoutes rawSpeed index train prog).1.nextStation =
        train.nextStation) := by
  by_cases hc : 1 ≤ prog train.id + max 30 (min train.maxSpeed rawSpeed) / 100 *
      (if 0 < train.delay then (0.7 : ℝ) else 1) * 0.015
  · have hstep : trainTick realLines stations trainRoutes rawSpeed index train prog =
        ({ train with
            speed := ((round (max 30 (min train.maxSpeed rawSpeed)) : ℤ) : ℝ)
            position := (getPointAlongPath pathPoints
              (min 0.95 (prog train.id + ((index % 3 : ℕ) : ℝ) * 0.1))).position
            currentStation := nid
            nextStation := route.getD (((ci + 1) % route.length + 1) % route.length) "" },
         fun id => if id = train.id then 0 else prog id) := by
      simp only [trainTick, hM, Bool.false_eq_true, if_false, hroute,
        jsIndexOf_next route train.currentStation ci hmem hci, hnid, hpath,
        if_pos hlen, if_pos hc]
    rw [hstep]
    refine ⟨?_, fun _ => ⟨rfl, ?_⟩, fun hnc => absurd hc hnc⟩
    · rw [if_pos hc]
      exact if_pos rfl
    · show route.getD (((ci + 1) % route.length + 1) % route.length) "" =
        route.getD ((ci + 2) % route.length) ""
      rw [Nat.mod_add_mod]
  · have hstep : trainTick realLines stations trainRoutes rawSpeed index train prog =
        ({ train with
            speed := ((round (max 30 (min train.maxSpeed rawSpeed)) : ℤ) : ℝ)
            position := (getPointAlongPath pathPoints
              (min 0.95 (prog train.id + ((index % 3 : ℕ) : ℝ) * 0.1))).position },
         fun id => if id = train.id then prog train.id + max 30 (min train.maxSpeed rawSpeed) /
            100 * (if 0 < train.delay then (0.7 : ℝ) else 1) * 0.015 else prog id) := by
      simp only [trainTick, hM, Bool.false_eq_true, if_false, hroute,
        jsIndexOf_next route train.currentStation ci hmem hci, hnid, hpath,
        if_pos hlen, if_neg hc]
    rw [hstep]
    refine ⟨?_, fun hcc => absurd hcc hc, fun _ => ⟨rfl, rfl⟩⟩
    rw [if_neg hc]
    exact if_pos rfl

/-- C5 witness: a train at progress `0.97` whose tick increment evaluates
to `0.05` (speed `1000/3` km/h, no delay) wraps to progress exactly `0`
and advances from `ST001` to `ST002` with next station wrapping back to
`ST001`. -/
theorem trainTick_wraparound_witness :
    ((trainTick [] [] (fun _ => none) (1000 / 3) 0
        { id := "T1", currentStation := "ST001", nextStation := "ST002", speed := 0,
          maxSpeed := 400, delay := 0, route := ["ST001", "ST002"], position := ⟨0, 0⟩ }
        (fun _ => 0.97)).2 "T1" = 0 ∧
     (trainTick [] [] (fun _ => none) (1000 / 3) 0
        { id := "T1", currentStation := "ST001", nextStation := "ST002", speed := 0,
          maxSpeed := 400, delay := 0, route := ["ST001", "ST002"], position := ⟨0, 0⟩ }
        (fun _ => 0.97)).1.currentStation = "ST002" ∧
     (trainTick [] [] (fun _ => none) (1000 / 3) 0
        { id := "T1", currentStation := "ST001", nextStation := "ST002", speed := 0,
          maxSpeed := 400, delay := 0, route := ["ST001", "ST002"], position := ⟨0, 0⟩ }
        (fun _ => 0.97)).1.nextStation = "ST001") := by
  have hcond : (1 : ℝ) ≤ 0.97 + max 30 (min (400 : ℝ) (1000 / 3)) / 100 *
      (if (0 : ℝ) < 0 then (0.7 : ℝ) else 1) * 0.015 := by
    rw [min_eq_right (by norm_num), max_eq_right (by norm_num), if_neg (lt_irrefl (0 : ℝ))]
    norm_num
  obtain ⟨h1, h2, _⟩ := trainTick_wraparound [] [] (fun _ => none) (1000 / 3) 0
    { id := "T1", currentStation := "ST001", nextStation := "ST002", speed := 0,
      maxSpeed := 400, delay := 0, route := ["ST001", "ST002"], position := ⟨0, 0⟩ }
    (fun _ => 0.97) ["ST001", "ST002"] 0 "ST002" [⟨350, 250⟩, ⟨400, 300⟩]
    rfl rfl (List.mem_cons_self _ _) rfl rfl rfl (by norm_num)
  obtain ⟨hcur, hnext⟩ := h2 hcond
  refine ⟨?_, hcur, hnext⟩
  rw [h1, if_pos hcond]

end RailMap
